import Mathlib

/- Shallow embedding of the auto-fit text layout engine of `src/streamer.js`
(class `TextLayoutEngine`).  Pixel widths are modelled as rationals, font
sizes and box dimensions driving the integer binary search as naturals, and
the canvas text-measurement primitive (`#measure`) as an explicit function
parameter.  Strings are modelled as `List Char`. -/

/-- The measurement capability: `μ fontSize text` is the rendered pixel width
of `text` at `fontSize` (JS: `this.#measure(fontSize, text).width`). -/
abbrev Measurer : Type := ℕ → List Char → ℚ

/-- A wrapped line as built by `#wrapText`: accumulated text plus the
(differential, possibly approximate) width bookkeeping. -/
structure WLine where
  text : List Char
  width : ℚ
deriving DecidableEq, Repr

/-- A finished line with draw coordinates, as emitted by `calcLayout`. -/
structure PosLine where
  text : List Char
  width : ℚ
  x : ℚ
  y : ℚ
deriving DecidableEq, Repr

/-- The result of `calcLayout`: font descriptor plus finished lines. -/
structure LayoutResult where
  font : String
  lines : List PosLine
deriving DecidableEq, Repr

/-- JS: `baselineRatio = 0.88`. -/
def baselineRatio : ℚ := 22 / 25

/-- JS: `#getFontFor(fontSize)`, the string `${fontSize}px sans-serif`. -/
def getFontFor (fontSize : ℕ) : String := toString fontSize ++ "px sans-serif"

/-- The loop of `#wrapText(text, fontSize, width)`: the first argument is the
remaining input, the second the mutable `line` accumulator.  On overflow the
current line is pushed (a copy, as in `lines.push({...line})`) and the new
line starts with the overflowing character, its width bookkept as the
differential `metrics.width - line.width`.  At the end the accumulator is
pushed only if its text is non-empty (JS truthiness of `line.text`). -/
def wrapTextGo (μ : Measurer) (fontSize : ℕ) (width : ℚ) :
    List Char → WLine → List WLine
  | [], line => if line.text = [] then [] else [line]
  | c :: rest, line =>
    let m := μ fontSize (line.text ++ [c])
    if width < m then
      { text := line.text, width := line.width } ::
        wrapTextGo μ fontSize width rest { text := [c], width := m - line.width }
    else
      wrapTextGo μ fontSize width rest { text := line.text ++ [c], width := m }

/-- JS: `#wrapText(text, fontSize, width)`. -/
def wrapText (μ : Measurer) (text : List Char) (fontSize : ℕ) (width : ℚ) :
    List WLine :=
  wrapTextGo μ fontSize width text { text := [], width := 0 }

/-- Text-only image of the `#wrapText` loop: the control flow of the loop
depends only on the accumulated `line.text` (the measured text), never on the
bookkept width, so the emitted line texts follow this recursion. -/
def wrapChunks (μ : Measurer) (fontSize : ℕ) (width : ℚ) :
    List Char → List Char → List (List Char)
  | [], t => if t = [] then [] else [t]
  | c :: rest, t =>
    if width < μ fontSize (t ++ [c]) then
      t :: wrapChunks μ fontSize width rest [c]
    else
      wrapChunks μ fontSize width rest (t ++ [c])

/-- JS: the `hasOverflow` test inside `#fitText`:
`numOfLines > maxWrap || fontSize * numOfLines > height`. -/
def hasOverflow (μ : Measurer) (text : List Char) (width : ℚ)
    (height maxWrap fontSize : ℕ) : Bool :=
  decide (maxWrap < (wrapText μ text fontSize width).length) ||
    decide (height < fontSize * (wrapText μ text fontSize width).length)

/-- The `while (minFontSize <= maxFontSize)` loop of `#fitText`, with an
explicit fuel (the JS loop needs none; fuel sufficiency is proved below).
Returns the chosen font size, its wrap result, and the number of loop
iterations (= number of `#wrapText` calls).  `none` models the JS loop
falling through without returning (the function yields `undefined`). -/
def fitTextGo (μ : Measurer) (text : List Char) (width : ℚ)
    (height maxWrap : ℕ) : ℕ → ℕ → ℕ → Option (ℕ × List WLine × ℕ)
  | 0, _, _ => none
  | fuel + 1, minF, maxF =>
    if maxF < minF then none
    else
      let fontSize := (minF + maxF) / 2
      if maxF - minF ≤ 1 then
        some (fontSize, wrapText μ text fontSize width, 1)
      else if hasOverflow μ text width height maxWrap fontSize then
        (fitTextGo μ text width height maxWrap fuel minF (fontSize - 1)).map
          (fun r => (r.1, r.2.1, r.2.2 + 1))
      else
        (fitTextGo μ text width height maxWrap fuel fontSize maxF).map
          (fun r => (r.1, r.2.1, r.2.2 + 1))

/-- JS: `#fitText(text, width, height, maxWrap)`.  The search range is
`minFontSize = Math.floor(height / maxWrap)` to `maxFontSize = height`.
For `maxWrap = 0` the JS computes `Math.floor(height / 0)`, i.e. `Infinity`
(`NaN` when `height = 0`), so the `while` guard is false at once and the
function returns `undefined`; this is modelled by the `none` branch. -/
def fitText (μ : Measurer) (text : List Char) (width : ℚ)
    (height maxWrap : ℕ) : Option (ℕ × List WLine × ℕ) :=
  if maxWrap = 0 then none
  else fitTextGo μ text width height maxWrap (height + 1) (height / maxWrap) height

/-- The ellipsis character appended by `calcLayout` on truncation. -/
def ellipsisChar : Char := '…'

/-- JS: `lines.at(-1).text += "…"` (after `lines.length = maxWrap`); the
width field of the last line is left untouched.  The empty case cannot be
reached from `calcLayout` (truncation only happens to `maxWrap ≥ 1` lines). -/
def addEllipsisLast (lines : List WLine) : List WLine :=
  match lines.getLast? with
  | none => lines
  | some last =>
    lines.dropLast ++ [{ text := last.text ++ [ellipsisChar], width := last.width }]

/-- The coordinate pass of `calcLayout`: for the line at index `i`,
`x = (width - line.width) / 2` and `y = offsetY + fontSize * (i + 0.88)`. -/
def placeLines (width offsetY : ℚ) (fontSize : ℕ) : ℕ → List WLine → List PosLine
  | _, [] => []
  | i, l :: rest =>
    { text := l.text, width := l.width, x := (width - l.width) / 2,
      y := offsetY + (fontSize : ℚ) * ((i : ℚ) + baselineRatio) } ::
      placeLines width offsetY fontSize (i + 1) rest

/-- JS: `calcLayout(text, width, height, maxWrap)`.  `none` models the
`TypeError` thrown when the result of `#fitText` is `undefined` and the
destructuring `const { fontSize, lines } = ...` fails. -/
def calcLayout (μ : Measurer) (text : List Char) (width : ℚ)
    (height maxWrap : ℕ) : Option LayoutResult :=
  match fitText μ text width height maxWrap with
  | none => none
  | some (fontSize, lines0, _) =>
    let lines := if maxWrap < lines0.length
      then addEllipsisLast (lines0.take maxWrap) else lines0
    let offsetY : ℚ := ((height : ℚ) - (fontSize : ℚ) * lines.length) / 2
    some { font := getFontFor fontSize,
           lines := placeLines width offsetY fontSize 0 lines }

/-- Concrete measurer for tests and counterexamples: every character is one
font-size unit wide, so a string measures `fontSize * length` pixels. -/
def muLinear : Measurer := fun fontSize s => ((fontSize * s.length : ℕ) : ℚ)

/-- Concrete measurer for tests and counterexamples: every character is two
pixels wide at every font size. -/
def muFixed : Measurer := fun _ s => ((2 * s.length : ℕ) : ℚ)

/-- Natural-valued core of the kinked measurer `muKink` below.  The width
depends only on the first character and the length, which makes it monotone
under appending characters (the head is preserved, the length grows). -/
def muKinkVal : List Char → ℕ
  | [] => 0
  | c :: rest =>
    if c = 'a' then (if rest.length ≤ 1 then rest.length + 1 else 11)
    else if c = 'c' then (if rest.length = 0 then 9 else 12)
    else rest.length + 1

/-- The layout computed by `calcLayout` for the linear measurer, text `"ab"`,
width 10, height 4, maxWrap 2: font size 3 is chosen, the single line
measures 6, is centered at `x = 2`, and sits at
`y = (4 - 3) / 2 + 3 * 0.88 = 157 / 50`. -/
def sampleLayout : LayoutResult :=
  { font := "3px sans-serif",
    lines := [{ text := ['a', 'b'], width := 6, x := 2, y := 157 / 50 }] }

/-- The wrap result of `#wrapText` for the fixed-width measurer on `"aaaaa"`
at width 2: one character per line. -/
def sampleTruncLines : List WLine :=
  [{ text := ['a'], width := 2 }, { text := ['a'], width := 2 },
   { text := ['a'], width := 2 }, { text := ['a'], width := 2 },
   { text := ['a'], width := 2 }]

/-- The layout computed by `calcLayout` for the fixed-width measurer, text
`"aaaaa"`, width 2, height 10, maxWrap 2: the five wrapped lines overflow
the cap, so they are truncated to two and the last one is ellipsized. -/
def sampleTruncLayout : LayoutResult :=
  { font := "5px sans-serif",
    lines := [{ text := ['a'], width := 2, x := 0, y := 22 / 5 },
              { text := ['a', ellipsisChar], width := 2, x := 0, y := 47 / 5 }] }

/-- Concrete measurer that is monotone under appending characters (the
invariant the spec states for measurers) but not under prepending them:
`'c'` alone is much wider than `"bc"` or `"bcd"`. -/
def muKink : Measurer := fun _ s => ((muKinkVal s : ℕ) : ℚ)

theorem wrapTextGo_map_text (μ : Measurer) (fontSize : ℕ) (width : ℚ) :
    ∀ (s : List Char) (line : WLine),
      (wrapTextGo μ fontSize width s line).map (fun l => l.text) =
        wrapChunks μ fontSize width s line.text := by
  intro s
  induction s with
  | nil =>
    intro line
    simp only [wrapTextGo, wrapChunks]
    split <;> simp_all
  | cons c rest ih =>
    intro line
    simp only [wrapTextGo, wrapChunks]
    split
    · simpa using ih { text := [c], width := _ }
    · simpa using ih { text := line.text ++ [c], width := _ }

theorem wrapChunks_join (μ : Measurer) (fontSize : ℕ) (width : ℚ) :
    ∀ (s t : List Char), (wrapChunks μ fontSize width s t).flatten = t ++ s := by
  intro s
  induction s with
  | nil =>
    intro t
    simp only [wrapChunks]
    split <;> simp_all
  | cons c rest ih =>
    intro t
    simp only [wrapChunks]
    split
    · simp [ih]
    · simp [ih]

/-- C10: for every text, fontSize and maxWidth, concatenating the text fields
of the lines returned by `wrapText`, in order, yields exactly the input text:
no character is dropped, duplicated or reordered by wrapping. -/
theorem wrapText_concat (μ : Measurer) (text : List Char) (fontSize : ℕ)
    (width : ℚ) :
    ((wrapText μ text fontSize width).map (fun l => l.text)).flatten = text := by
  rw [wrapText, wrapTextGo_map_text]
  simpa using wrapChunks_join μ fontSize width text []

theorem wrapChunks_advance (μ : Measurer) (fontSize : ℕ) (width : ℚ) :
    ∀ (y s t : List Char),
      (∀ i, 1 ≤ i → i ≤ y.length → μ fontSize (t ++ y.take i) ≤ width) →
      wrapChunks μ fontSize width (y ++ s) t =
        wrapChunks μ fontSize width s (t ++ y) := by
  intro y
  induction y with
  | nil => intro s t _; simp
  | cons c y ih =>
    intro s t hfit
    have h1 : ¬ (width < μ fontSize (t ++ [c])) := by
      have := hfit 1 le_rfl (by simp)
      simpa using not_lt.mpr this
    simp only [List.cons_append, wrapChunks, if_neg h1, List.append_eq]
    rw [ih s (t ++ [c]) ?_]
    · simp
    · intro i h1i hiy
      have := hfit (i + 1) (by omega) (by simpa using hiy)
      simpa [List.take_succ_cons, List.append_assoc] using this

theorem wrapChunks_state_line (μ : Measurer) (fontSize : ℕ) (width : ℚ) :
    ∀ (s t : List Char), t ≠ [] →
      ∃ n, n ≤ s.length ∧
        (wrapChunks μ fontSize width s t).length ≤
          1 + (wrapChunks μ fontSize width (s.drop n) []).length := by
  intro s
  induction s with
  | nil =>
    intro t ht
    exact ⟨0, by simp, by simp [wrapChunks, ht]⟩
  | cons c rest ih =>
    intro t ht
    by_cases hov : width < μ fontSize (t ++ [c])
    · refine ⟨0, by simp, ?_⟩
      simp only [wrapChunks, if_pos hov, List.drop_zero]
      by_cases hc : width < μ fontSize [c]
      · simp only [List.nil_append, if_pos hc, List.length_cons]
        omega
      · simp only [List.nil_append, if_neg hc, List.length_cons]
        omega
    · obtain ⟨n, hn, hle⟩ := ih (t ++ [c]) (by simp)
      refine ⟨n + 1, by simp [Nat.succ_le_succ hn], ?_⟩
      simpa [wrapChunks, if_neg hov] using hle

theorem wrapChunks_min (μ : Measurer) (fontSize : ℕ) (width : ℚ)
    (happ : ∀ s t, μ fontSize s ≤ μ fontSize (s ++ t))
    (hpre : ∀ s t, μ fontSize t ≤ μ fontSize (s ++ t)) :
    ∀ (P : List (List Char)) (x u : List Char),
      (∀ l ∈ P, l ≠ [] ∧ μ fontSize l ≤ width) →
      P.flatten = x ++ u →
      (wrapChunks μ fontSize width u []).length ≤ P.length := by
  intro P
  induction P with
  | nil =>
    intro x u _ hflat
    have hu : u = [] := by
      have h : x ++ u = [] := by simpa using hflat.symm
      exact (List.append_eq_nil.mp h).2
    subst hu
    simp [wrapChunks]
  | cons L P ih =>
    intro x u hval hflat
    obtain ⟨hLne, hLfit⟩ := hval L (by simp)
    have hflat' : L ++ P.flatten = x ++ u := by simpa using hflat
    rcases List.append_eq_append_iff.mp hflat' with ⟨e, hx, hj⟩ | ⟨y, hL, hu⟩
    · have := ih e u (fun l hl => hval l (by simp [hl])) hj
      calc (wrapChunks μ fontSize width u []).length ≤ P.length := this
        _ ≤ (L :: P).length := by simp
    · by_cases hy : y = []
      · subst hy
        simp only [List.nil_append] at hu
        have := ih [] u (fun l hl => hval l (by simp [hl])) (by simpa using hu.symm)
        calc (wrapChunks μ fontSize width u []).length ≤ P.length := this
          _ ≤ (L :: P).length := by simp
      · have hyfit : μ fontSize y ≤ width := by
          have h1 : μ fontSize y ≤ μ fontSize (x ++ y) := hpre x y
          rw [← hL] at h1
          exact le_trans h1 hLfit
      -- the wrap of u first consumes all of y without a break
        have hadv : wrapChunks μ fontSize width u [] =
            wrapChunks μ fontSize width P.flatten y := by
          rw [hu, wrapChunks_advance μ fontSize width y P.flatten []]
          · simp
          · intro i h1i hiy
            have h2 : μ fontSize (y.take i) ≤ μ fontSize (y.take i ++ y.drop i) :=
              happ (y.take i) (y.drop i)
            rw [List.take_append_drop] at h2
            simpa using le_trans h2 hyfit
        obtain ⟨n, hn, hstate⟩ := wrapChunks_state_line μ fontSize width P.flatten y hy
        have hrest := ih (P.flatten.take n) (P.flatten.drop n)
          (fun l hl => hval l (by simp [hl])) (List.take_append_drop n P.flatten).symm
        rw [hadv]
        calc (wrapChunks μ fontSize width P.flatten y).length
            ≤ 1 + (wrapChunks μ fontSize width (P.flatten.drop n) []).length := hstate
          _ ≤ 1 + P.length := by omega
          _ = (L :: P).length := by simp [Nat.add_comm]

theorem wrapChunks_fit (μ : Measurer) (fontSize : ℕ) (width : ℚ) :
    ∀ (s t : List Char), (2 ≤ t.length → μ fontSize t ≤ width) →
      ∀ l ∈ wrapChunks μ fontSize width s t, 2 ≤ l.length → μ fontSize l ≤ width := by
  intro s
  induction s with
  | nil =>
    intro t hinv l hl h2
    by_cases ht : t = []
    · simp [wrapChunks, ht] at hl
    · simp only [wrapChunks, if_neg ht, List.mem_singleton] at hl
      subst hl
      exact hinv h2
  | cons c rest ih =>
    intro t hinv l hl h2
    by_cases hov : width < μ fontSize (t ++ [c])
    · simp only [wrapChunks, if_pos hov, List.mem_cons] at hl
      rcases hl with h | h
      · subst h; exact hinv h2
      · exact ih [c] (by intro hx; simp at hx) l h h2
    · simp only [wrapChunks, if_neg hov] at hl
      exact ih (t ++ [c]) (fun _ => not_lt.mp hov) l hl h2

theorem wrapText_length_eq_chunks (μ : Measurer) (text : List Char)
    (fontSize : ℕ) (width : ℚ) :
    (wrapText μ text fontSize width).length =
      (wrapChunks μ fontSize width text []).length := by
  have h := congrArg List.length (wrapTextGo_map_text μ fontSize width text
    { text := [], width := 0 })
  simpa [wrapText] using h

theorem muKinkVal_append_mono : ∀ s t : List Char, muKinkVal s ≤ muKinkVal (s ++ t) := by
  intro s t
  cases s with
  | nil => simp [muKinkVal]
  | cons c rest =>
    simp only [List.cons_append, muKinkVal, List.length_append]
    split_ifs <;> omega

theorem muLinear_append_mono (fontSize : ℕ) :
    ∀ s t : List Char, muLinear fontSize s ≤ muLinear fontSize (s ++ t) := by
  intro s t
  simp only [muLinear]
  exact_mod_cast Nat.mul_le_mul le_rfl (by simp)

theorem muLinear_prepend_mono (fontSize : ℕ) :
    ∀ s t : List Char, muLinear fontSize t ≤ muLinear fontSize (s ++ t) := by
  intro s t
  simp only [muLinear]
  exact_mod_cast Nat.mul_le_mul le_rfl (by simp)

/-- C2 (amended): `wrapText` performs character-granular greedy packing, and
its line count is minimal among all decompositions of `text` into non-empty
lines each of measured width ≤ `maxWidth`, provided the measurer is monotone
both under appending characters and under prepending them (append-only
monotonicity, the invariant stated by the spec, is not enough — see the
counterexample).  Moreover every emitted line measures ≤ `maxWidth` except
lines of at most one character: a single character wider than `maxWidth`
still occupies a line alone. -/
theorem wrapText_min (μ : Measurer) (text : List Char) (fontSize : ℕ) (width : ℚ)
    (happ : ∀ s t, μ fontSize s ≤ μ fontSize (s ++ t))
    (hpre : ∀ s t, μ fontSize t ≤ μ fontSize (s ++ t)) :
    (∀ P : List (List Char), P.flatten = text →
        (∀ l ∈ P, l ≠ [] ∧ μ fontSize l ≤ width) →
        (wrapText μ text fontSize width).length ≤ P.length) ∧
    (∀ l ∈ wrapText μ text fontSize width,
        μ fontSize l.text ≤ width ∨ l.text.length ≤ 1) := by
  constructor
  · intro P hP hval
    rw [wrapText_length_eq_chunks]
    exact wrapChunks_min μ fontSize width happ hpre P [] text hval (by simpa using hP)
  · intro l hl
    by_cases h2 : 2 ≤ l.text.length
    · left
      have hmem : l.text ∈ wrapChunks μ fontSize width text [] := by
        rw [← wrapTextGo_map_text μ fontSize width text { text := [], width := 0 }]
        exact List.mem_map_of_mem (fun l => l.text) hl
      exact wrapChunks_fit μ fontSize width text [] (by intro h; simp at h) l.text hmem h2
    · right; omega

/-- C2 counterexample: with the measurer `muKink` — which satisfies the
spec's stated invariant (appending characters never shrinks the width) —
`wrapText` splits `"abcd"` at width 10 into 3 lines (`"ab"`, `"c"`, `"d"`),
yet the decomposition `["a", "bcd"]` into 2 lines is valid (each line is
non-empty and measures ≤ 10).  So `wrapText` does not produce the minimum
number of fitting lines that the claim asserts. -/
theorem wrapText_min_cex :
    (∀ s t : List Char, muKink 7 s ≤ muKink 7 (s ++ t)) ∧
    ([['a'], ['b', 'c', 'd']] : List (List Char)).flatten = ['a', 'b', 'c', 'd'] ∧
    (∀ l ∈ ([['a'], ['b', 'c', 'd']] : List (List Char)), l ≠ [] ∧ muKink 7 l ≤ 10) ∧
    (wrapText muKink ['a', 'b', 'c', 'd'] 7 10).length = 3 ∧
    ([['a'], ['b', 'c', 'd']] : List (List Char)).length <
      (wrapText muKink ['a', 'b', 'c', 'd'] 7 10).length := by
  refine ⟨?_, by decide, by decide, by decide, by decide⟩
  intro s t
  have h := muKinkVal_append_mono s t
  simp only [muKink]
  exact_mod_cast h

/-- C2 witness: the amended theorem applied to the two-character text `"ab"`
with the linear measurer at font size 1 and width 10. -/
theorem wrapText_min_witness :
    (∀ s t : List Char, muLinear 1 s ≤ muLinear 1 (s ++ t)) ∧
    (∀ s t : List Char, muLinear 1 t ≤ muLinear 1 (s ++ t)) ∧
    ((∀ P : List (List Char), P.flatten = ['a', 'b'] →
        (∀ l ∈ P, l ≠ [] ∧ muLinear 1 l ≤ 10) →
        (wrapText muLinear ['a', 'b'] 1 10).length ≤ P.length) ∧
      (∀ l ∈ wrapText muLinear ['a', 'b'] 1 10,
        muLinear 1 l.text ≤ 10 ∨ l.text.length ≤ 1)) :=
  ⟨muLinear_append_mono 1, muLinear_prepend_mono 1,
    wrapText_min muLinear ['a', 'b'] 1 10 (muLinear_append_mono 1)
      (muLinear_prepend_mono 1)⟩

theorem fitTextGo_lines (μ : Measurer) (text : List Char) (width : ℚ)
    (height maxWrap : ℕ) :
    ∀ (fuel minF maxF r : ℕ) (L : List WLine) (n : ℕ),
      fitTextGo μ text width height maxWrap fuel minF maxF = some (r, L, n) →
      L = wrapText μ text r width := by
  intro fuel
  induction fuel with
  | zero => intro minF maxF r L n h; simp [fitTextGo] at h
  | succ fuel ih =>
    intro minF maxF r L n h
    simp only [fitTextGo] at h
    by_cases hguard : maxF < minF
    · simp [if_pos hguard] at h
    · rw [if_neg hguard] at h
      by_cases hterm : maxF - minF ≤ 1
      · rw [if_pos hterm] at h
        simp only [Option.some.injEq, Prod.mk.injEq] at h
        obtain ⟨hr, hL, -⟩ := h
        subst hr
        exact hL.symm
      · rw [if_neg hterm] at h
        by_cases hov : hasOverflow μ text width height maxWrap ((minF + maxF) / 2) = true
        · rw [if_pos hov] at h
          obtain ⟨⟨r', L', n'⟩, hrec, heq⟩ := Option.map_eq_some'.mp h
          simp only [Prod.mk.injEq] at heq
          obtain ⟨hr, hL, -⟩ := heq
          subst hr
          subst hL
          exact ih minF ((minF + maxF) / 2 - 1) _ _ _ hrec
        · rw [if_neg hov] at h
          obtain ⟨⟨r', L', n'⟩, hrec, heq⟩ := Option.map_eq_some'.mp h
          simp only [Prod.mk.injEq] at heq
          obtain ⟨hr, hL, -⟩ := heq
          subst hr
          subst hL
          exact ih ((minF + maxF) / 2) maxF _ _ _ hrec

theorem fitTextGo_some (μ : Measurer) (text : List Char) (width : ℚ)
    (height maxWrap : ℕ) :
    ∀ (k fuel minF maxF : ℕ), maxF - minF ≤ 2 ^ k → maxF - minF < fuel →
      minF ≤ maxF →
      ∃ r n, fitTextGo μ text width height maxWrap fuel minF maxF =
          some (r, wrapText μ text r width, n) ∧
        minF ≤ r ∧ r ≤ maxF ∧ n ≤ k + 1 := by
  intro k
  induction k with
  | zero =>
    intro fuel minF maxF hk hfuel hle
    obtain ⟨fuel, rfl⟩ : ∃ f, fuel = f + 1 := ⟨fuel - 1, by omega⟩
    refine ⟨(minF + maxF) / 2, 1, ?_, by omega, by omega, le_rfl⟩
    simp only [fitTextGo, if_neg (by omega : ¬ maxF < minF)]
    rw [if_pos (by omega : maxF - minF ≤ 1)]
  | succ k ih =>
    intro fuel minF maxF hk hfuel hle
    obtain ⟨fuel, rfl⟩ : ∃ f, fuel = f + 1 := ⟨fuel - 1, by omega⟩
    by_cases hterm : maxF - minF ≤ 1
    · refine ⟨(minF + maxF) / 2, 1, ?_, by omega, by omega, by omega⟩
      simp only [fitTextGo, if_neg (by omega : ¬ maxF < minF)]
      rw [if_pos hterm]
    · have h2k : 2 ^ (k + 1) = 2 * 2 ^ k := by ring
      by_cases hov : hasOverflow μ text width height maxWrap ((minF + maxF) / 2) = true
      · obtain ⟨r, n, hrec, hr1, hr2, hn⟩ := ih fuel minF ((minF + maxF) / 2 - 1)
          (by omega) (by omega) (by omega)
        refine ⟨r, n + 1, ?_, by omega, by omega, by omega⟩
        simp only [fitTextGo, if_neg (by omega : ¬ maxF < minF), if_neg hterm,
          if_pos hov, hrec, Option.map_some']
      · obtain ⟨r, n, hrec, hr1, hr2, hn⟩ := ih fuel ((minF + maxF) / 2) maxF
          (by omega) (by omega) (by omega)
        refine ⟨r, n + 1, ?_, by omega, by omega, by omega⟩
        simp only [fitTextGo, if_neg (by omega : ¬ maxF < minF), if_neg hterm,
          if_neg hov, hrec, Option.map_some']

theorem fitTextGo_best (μ : Measurer) (text : List Char) (width : ℚ)
    (height maxWrap : ℕ)
    (mono : ∀ f g, f ≤ g → hasOverflow μ text width height maxWrap f = true →
      hasOverflow μ text width height maxWrap g = true) :
    ∀ (fuel minF maxF : ℕ), maxF - minF < fuel → minF ≤ maxF →
      hasOverflow μ text width height maxWrap minF = false →
      ∃ r n, fitTextGo μ text width height maxWrap fuel minF maxF =
          some (r, wrapText μ text r width, n) ∧
        minF ≤ r ∧ r ≤ maxF ∧
        hasOverflow μ text width height maxWrap r = false ∧
        ∀ f, r + 1 < f → f ≤ maxF →
          hasOverflow μ text width height maxWrap f = true := by
  intro fuel
  induction fuel with
  | zero => intro minF maxF h h2 h3; exact absurd h (by omega)
  | succ fuel ih =>
    intro minF maxF hfuel hle hgood
    by_cases hterm : maxF - minF ≤ 1
    · have hmid : (minF + maxF) / 2 = minF := by omega
      refine ⟨minF, 1, ?_, le_rfl, hle, hgood, ?_⟩
      · simp only [fitTextGo, if_neg (by omega : ¬ maxF < minF)]
        rw [if_pos hterm, hmid]
      · intro f h1 h2
        omega
    · by_cases hov : hasOverflow μ text width height maxWrap ((minF + maxF) / 2) = true
      · obtain ⟨r, n, hrec, hr1, hr2, hrg, hmax⟩ := ih minF ((minF + maxF) / 2 - 1)
          (by omega) (by omega) hgood
        refine ⟨r, n + 1, ?_, hr1, by omega, hrg, ?_⟩
        · simp only [fitTextGo, if_neg (by omega : ¬ maxF < minF), if_neg hterm,
            if_pos hov, hrec, Option.map_some']
        · intro f hf1 hf2
          by_cases hfle : f ≤ (minF + maxF) / 2 - 1
          · exact hmax f hf1 hfle
          · exact mono ((minF + maxF) / 2) f (by omega) hov
      · have hov' : hasOverflow μ text width height maxWrap ((minF + maxF) / 2) = false := by
          simpa using hov
        obtain ⟨r, n, hrec, hr1, hr2, hrg, hmax⟩ := ih ((minF + maxF) / 2) maxF
          (by omega) (by omega) hov'
        refine ⟨r, n + 1, ?_, by omega, hr2, hrg, hmax⟩
        simp only [fitTextGo, if_neg (by omega : ¬ maxF < minF), if_neg hterm,
          if_neg hov, hrec, Option.map_some']

theorem fitText_best_aux (μ : Measurer) (text : List Char) (width : ℚ)
    (height maxWrap : ℕ) (hw : 1 ≤ maxWrap)
    (mono : ∀ f g, f ≤ g → hasOverflow μ text width height maxWrap f = true →
      hasOverflow μ text width height maxWrap g = true)
    (hex : ∃ f, height / maxWrap ≤ f ∧ f ≤ height ∧
      hasOverflow μ text width height maxWrap f = false) :
    ∃ r n, fitText μ text width height maxWrap =
        some (r, wrapText μ text r width, n) ∧
      height / maxWrap ≤ r ∧ r ≤ height ∧
      hasOverflow μ text width height maxWrap r = false ∧
      ∀ f, f ≤ height → hasOverflow μ text width height maxWrap f = false →
        f ≤ r + 1 := by
  obtain ⟨f0, hf1, hf2, hf3⟩ := hex
  have hgood : hasOverflow μ text width height maxWrap (height / maxWrap) = false := by
    cases hcase : hasOverflow μ text width height maxWrap (height / maxWrap) with
    | false => rfl
    | true =>
      have h := mono (height / maxWrap) f0 hf1 hcase
      simp [hf3] at h
  have hdiv := Nat.div_le_self height maxWrap
  obtain ⟨r, n, hrec, hr1, hr2, hrg, hmax⟩ := fitTextGo_best μ text width height maxWrap
    mono (height + 1) (height / maxWrap) height
    (by have := Nat.sub_le height (height / maxWrap); omega) hdiv hgood
  refine ⟨r, n, ?_, hr1, hr2, hrg, ?_⟩
  · rw [fitText, if_neg (by omega : ¬ maxWrap = 0)]
    exact hrec
  · intro f hfh hfg
    by_contra hcon
    push_neg at hcon
    have h := hmax f hcon hfh
    simp [hfg] at h

theorem hasOverflow_eq_false_iff (μ : Measurer) (text : List Char) (width : ℚ)
    (height maxWrap fontSize : ℕ) :
    hasOverflow μ text width height maxWrap fontSize = false ↔
      (wrapText μ text fontSize width).length ≤ maxWrap ∧
      fontSize * (wrapText μ text fontSize width).length ≤ height := by
  simp [hasOverflow, not_lt]

theorem hasOverflow_eq_true_iff (μ : Measurer) (text : List Char) (width : ℚ)
    (height maxWrap fontSize : ℕ) :
    hasOverflow μ text width height maxWrap fontSize = true ↔
      maxWrap < (wrapText μ text fontSize width).length ∨
      height < fontSize * (wrapText μ text fontSize width).length := by
  simp [hasOverflow]

theorem wrapText_muLinear_single (f : ℕ) :
    wrapText muLinear ['a'] f 1000 =
      if (1000 : ℚ) < (f : ℚ) then
        [{ text := [], width := 0 }, { text := ['a'], width := (f : ℚ) }]
      else [{ text := ['a'], width := (f : ℚ) }] := by
  simp only [wrapText, wrapTextGo, muLinear, List.nil_append, List.length_cons,
    List.length_nil, Nat.zero_add, mul_one, sub_zero]
  split_ifs <;> simp_all

theorem wrapText_muLinear_single_length (f : ℕ) :
    (wrapText muLinear ['a'] f 1000).length = if 1000 < f then 2 else 1 := by
  rw [wrapText_muLinear_single]
  by_cases h : 1000 < f
  · rw [if_pos (by exact_mod_cast h), if_pos h]
    rfl
  · rw [if_neg (by exact_mod_cast h), if_neg h]
    rfl

theorem wrapText_muLinear_nl_mono :
    ∀ f g : ℕ, f ≤ g → (wrapText muLinear ['a'] f 1000).length ≤
      (wrapText muLinear ['a'] g 1000).length := by
  intro f g hfg
  rw [wrapText_muLinear_single_length, wrapText_muLinear_single_length]
  split_ifs <;> omega

theorem hasOverflow_muLinear_iff (f : ℕ) :
    hasOverflow muLinear ['a'] 1000 10 3 f = true ↔ 10 < f := by
  rw [hasOverflow]
  simp only [Bool.or_eq_true, decide_eq_true_eq, wrapText_muLinear_single_length]
  split_ifs with h <;> omega

theorem hasOverflow_muLinear_mono :
    ∀ f g : ℕ, f ≤ g → hasOverflow muLinear ['a'] 1000 10 3 f = true →
      hasOverflow muLinear ['a'] 1000 10 3 g = true := by
  intro f g hfg hf
  rw [hasOverflow_muLinear_iff] at hf ⊢
  omega

/-- C1 (amended): for every text, width, height and maxWrap ≥ 1 such that
the measurer makes overflow monotone in the font size and at least one
integer size in `[height / maxWrap, height]` satisfies both constraints,
`#fitText` returns a font size in that closed range satisfying both
constraints (`numberOfLines ≤ maxWrap` and `fontSize * numberOfLines ≤
height`, i.e. no overflow), together with the wrap result at that size, and
no size in the range exceeding the returned one by more than one satisfies
them: the returned size is the largest satisfying size or one less.  The
original "largest" is refuted by the counterexample — the upper end of the
window can satisfy the constraints yet never be probed. -/
theorem fitText_best (μ : Measurer) (text : List Char) (width : ℚ)
    (height maxWrap : ℕ) (hw : 1 ≤ maxWrap)
    (mono : ∀ f g, f ≤ g → hasOverflow μ text width height maxWrap f = true →
      hasOverflow μ text width height maxWrap g = true)
    (hex : ∃ f, height / maxWrap ≤ f ∧ f ≤ height ∧
      hasOverflow μ text width height maxWrap f = false) :
    ∃ r n, fitText μ text width height maxWrap =
        some (r, wrapText μ text r width, n) ∧
      height / maxWrap ≤ r ∧ r ≤ height ∧
      hasOverflow μ text width height maxWrap r = false ∧
      ∀ f, f ≤ height → hasOverflow μ text width height maxWrap f = false →
        f ≤ r + 1 :=
  fitText_best_aux μ text width height maxWrap hw mono hex

/-- C1 counterexample: with the linear measurer, text `"a"`, width 1000,
height 10 and maxWrap 3, overflow is monotone in the font size, the font
size 10 lies in the search range `[10 / 3, 10]` and satisfies both
constraints, yet `#fitText` returns font size 9: the returned size is not
the largest satisfying size in the range. -/
theorem fitText_best_cex :
    (∀ f g : ℕ, f ≤ g → hasOverflow muLinear ['a'] 1000 10 3 f = true →
      hasOverflow muLinear ['a'] 1000 10 3 g = true) ∧
    10 / 3 ≤ 10 ∧ (10 : ℕ) ≤ 10 ∧
    hasOverflow muLinear ['a'] 1000 10 3 10 = false ∧
    (fitText muLinear ['a'] 1000 10 3).map (fun r => r.1) = some 9 ∧
    (9 : ℕ) < 10 :=
  ⟨hasOverflow_muLinear_mono, by omega, le_rfl, by decide, by decide, by omega⟩

/-- C1 witness: the amended theorem applied to the linear measurer, text
`"a"`, width 1000, height 10, maxWrap 3, with its hypotheses discharged. -/
theorem fitText_best_witness :
    (1 : ℕ) ≤ 3 ∧
    (∀ f g : ℕ, f ≤ g → hasOverflow muLinear ['a'] 1000 10 3 f = true →
      hasOverflow muLinear ['a'] 1000 10 3 g = true) ∧
    (∃ f, 10 / 3 ≤ f ∧ f ≤ 10 ∧ hasOverflow muLinear ['a'] 1000 10 3 f = false) ∧
    (∃ r n, fitText muLinear ['a'] 1000 10 3 =
        some (r, wrapText muLinear ['a'] r 1000, n) ∧
      10 / 3 ≤ r ∧ r ≤ 10 ∧ hasOverflow muLinear ['a'] 1000 10 3 r = false ∧
      ∀ f, f ≤ 10 → hasOverflow muLinear ['a'] 1000 10 3 f = false → f ≤ r + 1) :=
  ⟨by omega, hasOverflow_muLinear_mono, ⟨10, by decide, by decide, by decide⟩,
    fitText_best muLinear ['a'] 1000 10 3 (by omega) hasOverflow_muLinear_mono
      ⟨10, by decide, by decide, by decide⟩⟩

/-- C8 (amended): for fixed text, width and height, with a measurer whose
wrap line count is monotone in the font size and a satisfying size in the
smaller range, the chosen font size is monotone in `maxWrap` up to one unit:
for `1 ≤ maxWrap1 ≤ maxWrap2` the size chosen with `maxWrap1` is at most one
more than the size chosen with `maxWrap2`.  Exact monotonicity, as the
original claim states it, is refuted by the counterexample. -/
theorem fitText_maxWrap_monotone (μ : Measurer) (text : List Char) (width : ℚ)
    (height w1 w2 : ℕ) (h1 : 1 ≤ w1) (h12 : w1 ≤ w2)
    (hnl : ∀ f g, f ≤ g →
      (wrapText μ text f width).length ≤ (wrapText μ text g width).length)
    (hex : ∃ f, height / w1 ≤ f ∧ f ≤ height ∧
      hasOverflow μ text width height w1 f = false) :
    ∃ r1 n1 r2 n2,
      fitText μ text width height w1 = some (r1, wrapText μ text r1 width, n1) ∧
      fitText μ text width height w2 = some (r2, wrapText μ text r2 width, n2) ∧
      r1 ≤ r2 + 1 := by
  have hmono : ∀ w f g, f ≤ g → hasOverflow μ text width height w f = true →
      hasOverflow μ text width height w g = true := by
    intro w f g hfg hf
    rw [hasOverflow_eq_true_iff] at hf ⊢
    have hlen := hnl f g hfg
    rcases hf with h | h
    · left; omega
    · right
      have hm : f * (wrapText μ text f width).length ≤
          g * (wrapText μ text g width).length := Nat.mul_le_mul hfg hlen
      omega
  have hw2w1 : ∀ f, hasOverflow μ text width height w1 f = false →
      hasOverflow μ text width height w2 f = false := by
    intro f hf
    rw [hasOverflow_eq_false_iff] at hf ⊢
    exact ⟨le_trans hf.1 h12, hf.2⟩
  have hex2 : ∃ f, height / w2 ≤ f ∧ f ≤ height ∧
      hasOverflow μ text width height w2 f = false := by
    obtain ⟨f, ha, hb, hc⟩ := hex
    refine ⟨f, le_trans (Nat.div_le_div_left h12 h1) ha, hb, hw2w1 f hc⟩
  obtain ⟨r1, n1, e1, hr1a, hr1b, hr1g, hmax1⟩ :=
    fitText_best_aux μ text width height w1 h1 (hmono w1) hex
  obtain ⟨r2, n2, e2, hr2a, hr2b, hr2g, hmax2⟩ :=
    fitText_best_aux μ text width height w2 (le_trans h1 h12) (hmono w2) hex2
  exact ⟨r1, n1, r2, n2, e1, e2, hmax2 r1 hr1b (hw2w1 r1 hr1g)⟩

/-- C8 counterexample: with the linear measurer and text `"a"`, width 1000,
height 10, the wrap line count is monotone in the font size, yet raising
`maxWrap` from 1 to 3 lowers the chosen font size from 10 to 9: the chosen
size is not monotone non-decreasing in `maxWrap`. -/
theorem fitText_maxWrap_monotone_cex :
    (∀ f g : ℕ, f ≤ g → (wrapText muLinear ['a'] f 1000).length ≤
      (wrapText muLinear ['a'] g 1000).length) ∧
    (fitText muLinear ['a'] 1000 10 1).map (fun r => r.1) = some 10 ∧
    (fitText muLinear ['a'] 1000 10 3).map (fun r => r.1) = some 9 ∧
    ¬ (10 : ℕ) ≤ 9 :=
  ⟨wrapText_muLinear_nl_mono, by decide, by decide, by omega⟩

/-- C8 witness: the amended theorem applied to the linear measurer, text
`"a"`, width 1000, height 10, `maxWrap1 = 1`, `maxWrap2 = 3`. -/
theorem fitText_maxWrap_monotone_witness :
    (1 : ℕ) ≤ 1 ∧ (1 : ℕ) ≤ 3 ∧
    (∀ f g : ℕ, f ≤ g → (wrapText muLinear ['a'] f 1000).length ≤
      (wrapText muLinear ['a'] g 1000).length) ∧
    (∃ f, 10 / 1 ≤ f ∧ f ≤ 10 ∧ hasOverflow muLinear ['a'] 1000 10 1 f = false) ∧
    (∃ r1 n1 r2 n2,
      fitText muLinear ['a'] 1000 10 1 = some (r1, wrapText muLinear ['a'] r1 1000, n1) ∧
      fitText muLinear ['a'] 1000 10 3 = some (r2, wrapText muLinear ['a'] r2 1000, n2) ∧
      r1 ≤ r2 + 1) :=
  ⟨le_rfl, by omega, wrapText_muLinear_nl_mono,
    ⟨10, by decide, by decide, by decide⟩,
    fitText_maxWrap_monotone muLinear ['a'] 1000 10 1 3 le_rfl (by omega)
      wrapText_muLinear_nl_mono ⟨10, by decide, by decide, by decide⟩⟩

theorem placeLines_length (width offsetY : ℚ) (fontSize : ℕ) :
    ∀ (ls : List WLine) (k : ℕ),
      (placeLines width offsetY fontSize k ls).length = ls.length := by
  intro ls
  induction ls with
  | nil => intro k; rfl
  | cons l rest ih => intro k; simp [placeLines, ih]

theorem placeLines_get (width offsetY : ℚ) (fontSize : ℕ) :
    ∀ (ls : List WLine) (k i : ℕ) (hi : i < ls.length)
      (hi2 : i < (placeLines width offsetY fontSize k ls).length),
      (placeLines width offsetY fontSize k ls).get ⟨i, hi2⟩ =
        { text := (ls.get ⟨i, hi⟩).text,
          width := (ls.get ⟨i, hi⟩).width,
          x := (width - (ls.get ⟨i, hi⟩).width) / 2,
          y := offsetY + (fontSize : ℚ) * (((k + i : ℕ) : ℚ) + baselineRatio) } := by
  intro ls
  induction ls with
  | nil => intro k i hi hi2; simp at hi
  | cons l rest ih =>
    intro k i hi hi2
    cases i with
    | zero => simp [placeLines]
    | succ i =>
      have hi' : i < rest.length := by simpa using hi
      have hi2' : i < (placeLines width offsetY fontSize (k + 1) rest).length := by
        rw [placeLines_length]; exact hi'
      have hstep : (placeLines width offsetY fontSize k (l :: rest)).get ⟨i + 1, hi2⟩ =
          (placeLines width offsetY fontSize (k + 1) rest).get ⟨i, hi2'⟩ := by
        simp [placeLines]
      rw [hstep, ih (k + 1) i hi' hi2']
      have hkcast : (((k + 1) + i : ℕ) : ℚ) = ((k + (i + 1) : ℕ) : ℚ) := by
        congr 1
        omega
      simp [hkcast]

theorem placeLines_map_text (width offsetY : ℚ) (fontSize : ℕ) :
    ∀ (ls : List WLine) (k : ℕ),
      (placeLines width offsetY fontSize k ls).map (fun l => l.text) =
        ls.map (fun l => l.text) := by
  intro ls
  induction ls with
  | nil => intro k; rfl
  | cons l rest ih => intro k; simp [placeLines, ih]

theorem placeLines_map_width (width offsetY : ℚ) (fontSize : ℕ) :
    ∀ (ls : List WLine) (k : ℕ),
      (placeLines width offsetY fontSize k ls).map (fun l => l.width) =
        ls.map (fun l => l.width) := by
  intro ls
  induction ls with
  | nil => intro k; rfl
  | cons l rest ih => intro k; simp [placeLines, ih]

theorem addEllipsisLast_length (ls : List WLine) :
    (addEllipsisLast ls).length = ls.length := by
  cases hl : ls.getLast? with
  | none => simp [addEllipsisLast, hl]
  | some last =>
    have hne : ls ≠ [] := by
      intro h
      subst h
      simp at hl
    have hpos : 0 < ls.length := List.length_pos.mpr hne
    simp [addEllipsisLast, hl, List.length_dropLast]
    omega

theorem fitText_lines (μ : Measurer) (text : List Char) (width : ℚ)
    (height maxWrap fs : ℕ) (lines0 : List WLine) (n : ℕ)
    (h : fitText μ text width height maxWrap = some (fs, lines0, n)) :
    lines0 = wrapText μ text fs width := by
  rw [fitText] at h
  by_cases h0 : maxWrap = 0
  · rw [if_pos h0] at h
    cases h
  · rw [if_neg h0] at h
    exact fitTextGo_lines μ text width height maxWrap (height + 1)
      (height / maxWrap) height fs lines0 n h

theorem fitText_maxWrap_ne_zero (μ : Measurer) (text : List Char) (width : ℚ)
    (height maxWrap fs : ℕ) (lines0 : List WLine) (n : ℕ)
    (h : fitText μ text width height maxWrap = some (fs, lines0, n)) :
    maxWrap ≠ 0 := by
  intro h0
  rw [fitText, if_pos h0] at h
  cases h

theorem wrapText_text_chars (μ : Measurer) (text : List Char) (fontSize : ℕ)
    (width : ℚ) :
    ∀ l ∈ wrapText μ text fontSize width, ∀ c ∈ l.text, c ∈ text := by
  intro l hl c hc
  have hmem : l.text ∈ wrapChunks μ fontSize width text [] := by
    rw [← wrapTextGo_map_text μ fontSize width text { text := [], width := 0 }]
    exact List.mem_map_of_mem (fun l => l.text) hl
  have hflat : c ∈ (wrapChunks μ fontSize width text []).flatten :=
    List.mem_flatten.mpr ⟨l.text, hmem, hc⟩
  rw [wrapChunks_join] at hflat
  simpa using hflat

/-- C9: for every input with `maxWrap ≥ 1` the engine terminates: `#fitText`
returns the current midpoint's wrap result (no constraint-satisfaction
hypothesis appears below — the final probed size is returned even if it
still overflows), the binary search runs at most `log2 height + 2`
iterations, each performing one `#wrapText` pass of `text.length` character
measurements (so at most `(log2 height + 2) * text.length` measurement
calls), and `calcLayout` returns a result. -/
theorem fitText_terminates (μ : Measurer) (text : List Char) (width : ℚ)
    (height maxWrap : ℕ) (hw : 1 ≤ maxWrap) :
    ∃ r n, fitText μ text width height maxWrap =
        some (r, wrapText μ text r width, n) ∧
      n ≤ Nat.log2 height + 2 ∧
      n * text.length ≤ (Nat.log2 height + 2) * text.length ∧
      (calcLayout μ text width height maxWrap).isSome = true := by
  have hpow : height < 2 ^ (Nat.log2 height + 1) := by
    rw [Nat.log2_eq_log_two]
    exact Nat.lt_pow_succ_log_self (by norm_num) height
  have hdiv := Nat.div_le_self height maxWrap
  have hsub := Nat.sub_le height (height / maxWrap)
  obtain ⟨r, n, hrec, hr1, hr2, hn⟩ := fitTextGo_some μ text width height maxWrap
    (Nat.log2 height + 1) (height + 1) (height / maxWrap) height
    (by omega) (by omega) hdiv
  have hfit : fitText μ text width height maxWrap =
      some (r, wrapText μ text r width, n) := by
    rw [fitText, if_neg (by omega : ¬ maxWrap = 0)]
    exact hrec
  refine ⟨r, n, hfit, by omega, Nat.mul_le_mul_right text.length (by omega), ?_⟩
  simp [calcLayout, hfit]

/-- C9 witness: the termination theorem applied to the linear measurer, text
`"ab"`, width 10, height 4, maxWrap 2. -/
theorem fitText_terminates_witness :
    (1 : ℕ) ≤ 2 ∧
    (∃ r n, fitText muLinear ['a', 'b'] 10 4 2 =
        some (r, wrapText muLinear ['a', 'b'] r 10, n) ∧
      n ≤ Nat.log2 4 + 2 ∧
      n * (['a', 'b'] : List Char).length ≤
        (Nat.log2 4 + 2) * (['a', 'b'] : List Char).length ∧
      (calcLayout muLinear ['a', 'b'] 10 4 2).isSome = true) :=
  ⟨by omega, fitText_terminates muLinear ['a', 'b'] 10 4 2 (by omega)⟩

/-- C7: for empty input text, `maxWrap ≥ 1` and positive width and height,
`calcLayout` returns a `LayoutResult` with an empty line sequence, `#wrapText`
returns an empty sequence at every font size, and no failure occurs. -/
theorem calcLayout_empty_text (μ : Measurer) (width : ℚ) (height maxWrap : ℕ)
    (hw : 1 ≤ maxWrap) (_hwidth : 0 < width) (_hheight : 0 < height) :
    (∀ f, wrapText μ [] f width = []) ∧
    ∃ res, calcLayout μ [] width height maxWrap = some res ∧ res.lines = [] := by
  have hwrap : ∀ f, wrapText μ [] f width = [] := by
    intro f
    rfl
  have hpow := Nat.lt_two_pow height
  have hdiv := Nat.div_le_self height maxWrap
  have hsub := Nat.sub_le height (height / maxWrap)
  obtain ⟨r, n, hrec, hr1, hr2, hn⟩ := fitTextGo_some μ [] width height maxWrap
    height (height + 1) (height / maxWrap) height (by omega) (by omega) hdiv
  rw [hwrap r] at hrec
  have hfit : fitText μ [] width height maxWrap = some (r, [], n) := by
    rw [fitText, if_neg (by omega : ¬ maxWrap = 0)]
    exact hrec
  refine ⟨hwrap, { font := getFontFor r, lines := [] }, ?_, rfl⟩
  simp [calcLayout, hfit, placeLines]

/-- C7 witness: the empty-text theorem applied to the linear measurer with
width 10, height 4, maxWrap 2. -/
theorem calcLayout_empty_text_witness :
    (1 : ℕ) ≤ 2 ∧ (0 : ℚ) < 10 ∧ (0 : ℕ) < 4 ∧
    ((∀ f, wrapText muLinear [] f 10 = []) ∧
      ∃ res, calcLayout muLinear [] 10 4 2 = some res ∧ res.lines = []) :=
  ⟨by omega, by norm_num, by omega,
    calcLayout_empty_text muLinear 10 4 2 (by omega) (by norm_num) (by omega)⟩

/-- C6 (amended): `calcLayout` performs no input validation.  With
`maxWrap = 0` the binary-search range is degenerate (`Math.floor(height / 0)`
is infinite), `#fitText` yields nothing and `calcLayout` fails by
destructuring `undefined` — an incidental `TypeError`, not a validated
`InvalidArgument` error — while non-positive `width` is accepted and
produces an ordinary `LayoutResult`. -/
theorem calcLayout_degenerate :
    (∀ (μ : Measurer) (text : List Char) (width : ℚ) (height : ℕ),
      calcLayout μ text width height 0 = none) ∧
    (calcLayout muLinear ['a', 'b'] (-5) 4 1).isSome = true := by
  constructor
  · intro μ text width height
    rfl
  · decide

/-- C6 counterexample: `calcLayout` with height 0 — a non-positive height —
does not fail at all: it returns an ordinary layout result, refuting the
claim that such inputs fail fast with an `InvalidArgument` error. -/
theorem calcLayout_degenerate_cex :
    (calcLayout muLinear ['a', 'b'] 10 0 1).isSome = true := by decide

theorem placeLines_y_mono (width offsetY : ℚ) (fontSize : ℕ) (ls : List WLine)
    (k i j : ℕ) (hi : i < (placeLines width offsetY fontSize k ls).length)
    (hj : j < (placeLines width offsetY fontSize k ls).length) (hij : i ≤ j) :
    ((placeLines width offsetY fontSize k ls).get ⟨i, hi⟩).y ≤
      ((placeLines width offsetY fontSize k ls).get ⟨j, hj⟩).y := by
  have hi' : i < ls.length := by rw [placeLines_length] at hi; exact hi
  have hj' : j < ls.length := by rw [placeLines_length] at hj; exact hj
  rw [placeLines_get width offsetY fontSize ls k i hi' hi,
    placeLines_get width offsetY fontSize ls k j hj' hj]
  simp only
  gcongr

/-- C3: every `LayoutResult` returned by `calcLayout` has at most `maxWrap`
lines, and the lines are in top-to-bottom order: the `y` coordinate is
monotone non-decreasing in the line index. -/
theorem calcLayout_line_cap (μ : Measurer) (text : List Char) (width : ℚ)
    (height maxWrap : ℕ) (res : LayoutResult)
    (h : calcLayout μ text width height maxWrap = some res) :
    res.lines.length ≤ maxWrap ∧
    ∀ (i j : ℕ) (hi : i < res.lines.length) (hj : j < res.lines.length),
      i ≤ j → (res.lines.get ⟨i, hi⟩).y ≤ (res.lines.get ⟨j, hj⟩).y := by
  rcases hfit : fitText μ text width height maxWrap with _ | ⟨fs, lines0, n⟩
  · simp only [calcLayout, hfit] at h
    cases h
  · simp only [calcLayout, hfit] at h
    rw [Option.some.injEq] at h
    subst h
    dsimp only
    constructor
    · rw [placeLines_length]
      by_cases hov : maxWrap < lines0.length
      · rw [if_pos hov, addEllipsisLast_length, List.length_take]
        omega
      · rw [if_neg hov]
        omega
    · intro i j hi hj hij
      exact placeLines_y_mono _ _ _ _ _ i j hi hj hij

/-- C3 witness: the line-cap theorem applied to the linear measurer, text
`"ab"`, width 10, height 4, maxWrap 2, whose layout is `sampleLayout`. -/
theorem calcLayout_line_cap_witness :
    calcLayout muLinear ['a', 'b'] 10 4 2 = some sampleLayout ∧
    (sampleLayout.lines.length ≤ 2 ∧
      ∀ (i j : ℕ) (hi : i < sampleLayout.lines.length)
        (hj : j < sampleLayout.lines.length),
        i ≤ j → (sampleLayout.lines.get ⟨i, hi⟩).y ≤
          (sampleLayout.lines.get ⟨j, hj⟩).y) :=
  ⟨by with_unfolding_all rfl,
    calcLayout_line_cap muLinear ['a', 'b'] 10 4 2 sampleLayout
      (by with_unfolding_all rfl)⟩

/-- C5: every line of a `LayoutResult` returned by `calcLayout`, at index
`i` from the top, has `x = (width - line.width) / 2` and
`y = offsetY + fontSize * (i + 0.88)` with
`offsetY = (height - fontSize * lines.length) / 2`; consequently every line
is independently horizontally centered: `x + line.width / 2 = width / 2`. -/
theorem calcLayout_coords (μ : Measurer) (text : List Char) (width : ℚ)
    (height maxWrap fs : ℕ) (lines0 : List WLine) (n : ℕ) (res : LayoutResult)
    (hf : fitText μ text width height maxWrap = some (fs, lines0, n))
    (hc : calcLayout μ text width height maxWrap = some res) :
    ∀ (i : ℕ) (hi : i < res.lines.length),
      (res.lines.get ⟨i, hi⟩).x = (width - (res.lines.get ⟨i, hi⟩).width) / 2 ∧
      (res.lines.get ⟨i, hi⟩).y =
        ((height : ℚ) - (fs : ℚ) * (res.lines.length : ℚ)) / 2 +
          (fs : ℚ) * ((i : ℚ) + baselineRatio) ∧
      (res.lines.get ⟨i, hi⟩).x + (res.lines.get ⟨i, hi⟩).width / 2 = width / 2 := by
  simp only [calcLayout, hf] at hc
  rw [Option.some.injEq] at hc
  subst hc
  dsimp only
  intro i hi
  have hi0 : i < (if maxWrap < lines0.length
      then addEllipsisLast (lines0.take maxWrap) else lines0).length := by
    rw [placeLines_length] at hi
    exact hi
  rw [placeLines_get width _ fs _ 0 i hi0 hi]
  refine ⟨rfl, ?_, by ring⟩
  rw [placeLines_length]
  norm_num

/-- C5 witness: the coordinate theorem applied to the linear measurer, text
`"ab"`, width 10, height 4, maxWrap 2, whose layout is `sampleLayout`. -/
theorem calcLayout_coords_witness :
    fitText muLinear ['a', 'b'] 10 4 2 =
      some (3, [{ text := ['a', 'b'], width := 6 }], 2) ∧
    calcLayout muLinear ['a', 'b'] 10 4 2 = some sampleLayout ∧
    (∀ (i : ℕ) (hi : i < sampleLayout.lines.length),
      (sampleLayout.lines.get ⟨i, hi⟩).x =
        ((10 : ℚ) - (sampleLayout.lines.get ⟨i, hi⟩).width) / 2 ∧
      (sampleLayout.lines.get ⟨i, hi⟩).y =
        (((4 : ℕ) : ℚ) - ((3 : ℕ) : ℚ) * (sampleLayout.lines.length : ℚ)) / 2 +
          ((3 : ℕ) : ℚ) * ((i : ℚ) + baselineRatio) ∧
      (sampleLayout.lines.get ⟨i, hi⟩).x +
        (sampleLayout.lines.get ⟨i, hi⟩).width / 2 = (10 : ℚ) / 2) :=
  ⟨by with_unfolding_all rfl, by with_unfolding_all rfl,
    calcLayout_coords muLinear ['a', 'b'] 10 4 2 3
      [{ text := ['a', 'b'], width := 6 }] 2 sampleLayout
      (by with_unfolding_all rfl) (by with_unfolding_all rfl)⟩

theorem getLast?_mem_self {α : Type} (l : List α) (a : α)
    (h : l.getLast? = some a) : a ∈ l := by
  obtain ⟨hne, heq⟩ := List.mem_getLast?_eq_getLast (Option.mem_def.mpr h)
  subst heq
  exact List.getLast_mem hne

/-- C4 (amended): whenever the fitter's wrap result has more than `maxWrap`
lines, `calcLayout` truncates it to exactly `maxWrap` lines and appends an
ellipsis character to the last retained line's text; no width is re-measured
(every emitted line, the ellipsized one included, keeps the width of the
corresponding wrap line).  The last emitted line's text ends with the
ellipsis character, and — provided the input text does not itself contain
the ellipsis character — no other line's text does.  The original
unconditional "no other line" is refuted by the counterexample, where the
input text consists of ellipsis characters. -/
theorem calcLayout_truncation (μ : Measurer) (text : List Char) (width : ℚ)
    (height maxWrap fs : ℕ) (lines0 : List WLine) (n : ℕ) (res : LayoutResult)
    (hf : fitText μ text width height maxWrap = some (fs, lines0, n))
    (hc : calcLayout μ text width height maxWrap = some res)
    (hover : maxWrap < lines0.length) :
    res.lines.length = maxWrap ∧
    res.lines.map (fun l => l.width) = (lines0.take maxWrap).map (fun l => l.width) ∧
    (∃ last, (lines0.take maxWrap).getLast? = some last ∧
      res.lines.map (fun l => l.text) =
        ((lines0.take maxWrap).dropLast).map (fun l => l.text) ++
          [last.text ++ [ellipsisChar]]) ∧
    (∃ plast, res.lines.getLast? = some plast ∧
      plast.text.getLast? = some ellipsisChar) ∧
    (ellipsisChar ∉ text →
      ∀ lt ∈ (res.lines.map (fun l => l.text)).dropLast,
        lt.getLast? ≠ some ellipsisChar) := by
  have hw0 : maxWrap ≠ 0 :=
    fitText_maxWrap_ne_zero μ text width height maxWrap fs lines0 n hf
  have hlines0 : lines0 = wrapText μ text fs width :=
    fitText_lines μ text width height maxWrap fs lines0 n hf
  simp only [calcLayout, hf] at hc
  rw [if_pos hover] at hc
  rw [Option.some.injEq] at hc
  subst hc
  dsimp only
  have hTlen : (lines0.take maxWrap).length = maxWrap := by
    rw [List.length_take]
    omega
  have hTne : lines0.take maxWrap ≠ [] := by
    intro h
    rw [h] at hTlen
    simp at hTlen
    omega
  have hlast := List.getLast?_eq_getLast (lines0.take maxWrap) hTne
  have hAE : addEllipsisLast (lines0.take maxWrap) =
      (lines0.take maxWrap).dropLast ++
        [{ text := ((lines0.take maxWrap).getLast hTne).text ++ [ellipsisChar],
           width := ((lines0.take maxWrap).getLast hTne).width }] := by
    rw [addEllipsisLast, hlast]
  have htexts :
      (placeLines width
          (((height : ℚ) - (fs : ℚ) * (addEllipsisLast (lines0.take maxWrap)).length) / 2)
          fs 0 (addEllipsisLast (lines0.take maxWrap))).map (fun l => l.text) =
        ((lines0.take maxWrap).dropLast).map (fun l => l.text) ++
          [((lines0.take maxWrap).getLast hTne).text ++ [ellipsisChar]] := by
    rw [placeLines_map_text, hAE, List.map_append]
    simp
  refine ⟨?_, ?_, ?_, ?_, ?_⟩
  · rw [placeLines_length, addEllipsisLast_length, hTlen]
  · rw [placeLines_map_width, hAE, List.map_append]
    conv_rhs => rw [← List.dropLast_append_getLast hTne]
    rw [List.map_append]
    simp
  · exact ⟨(lines0.take maxWrap).getLast hTne, hlast, htexts⟩
  · have h4 := congrArg List.getLast? htexts
    rw [List.getLast?_concat] at h4
    rw [List.getLast?_map] at h4
    obtain ⟨plast, hp1, hp2⟩ := Option.map_eq_some'.mp h4
    refine ⟨plast, hp1, ?_⟩
    rw [hp2, List.getLast?_concat]
  · intro he lt hlt hcontra
    rw [htexts, List.dropLast_concat] at hlt
    obtain ⟨w, hw, rfl⟩ := List.mem_map.mp hlt
    have hmem_e : ellipsisChar ∈ w.text := getLast?_mem_self w.text ellipsisChar hcontra
    have hw1 : w ∈ lines0.take maxWrap := (List.dropLast_sublist _).subset hw
    have hw2 : w ∈ lines0 := (List.take_sublist maxWrap lines0).subset hw1
    rw [hlines0] at hw2
    exact he (wrapText_text_chars μ text fs width w hw2 ellipsisChar hmem_e)

/-- C4 counterexample: with the fixed-width measurer and a text of five
ellipsis characters, the fitter's wrap has five lines, `calcLayout`
truncates to two, and the first (non-last) emitted line's text also ends
with an ellipsis character, refuting the claim that no line but the last
does. -/
theorem calcLayout_truncation_cex :
    (wrapText muFixed [ellipsisChar, ellipsisChar, ellipsisChar, ellipsisChar,
      ellipsisChar] 5 2).length = 5 ∧
    (calcLayout muFixed [ellipsisChar, ellipsisChar, ellipsisChar, ellipsisChar,
      ellipsisChar] 2 10 2).map (fun r => r.lines.map (fun l => l.text)) =
      some [[ellipsisChar], [ellipsisChar, ellipsisChar]] ∧
    List.getLast? [ellipsisChar] = some ellipsisChar :=
  ⟨by decide, by with_unfolding_all rfl, by decide⟩

/-- C4 witness: the truncation theorem applied to the fixed-width measurer,
text `"aaaaa"`, width 2, height 10, maxWrap 2. -/
theorem calcLayout_truncation_witness :
    fitText muFixed ['a', 'a', 'a', 'a', 'a'] 2 10 2 =
      some (5, sampleTruncLines, 2) ∧
    calcLayout muFixed ['a', 'a', 'a', 'a', 'a'] 2 10 2 = some sampleTruncLayout ∧
    2 < sampleTruncLines.length ∧
    (sampleTruncLayout.lines.length = 2 ∧
      sampleTruncLayout.lines.map (fun l => l.width) =
        (sampleTruncLines.take 2).map (fun l => l.width) ∧
      (∃ last, (sampleTruncLines.take 2).getLast? = some last ∧
        sampleTruncLayout.lines.map (fun l => l.text) =
          ((sampleTruncLines.take 2).dropLast).map (fun l => l.text) ++
            [last.text ++ [ellipsisChar]]) ∧
      (∃ plast, sampleTruncLayout.lines.getLast? = some plast ∧
        plast.text.getLast? = some ellipsisChar) ∧
      (ellipsisChar ∉ (['a', 'a', 'a', 'a', 'a'] : List Char) →
        ∀ lt ∈ (sampleTruncLayout.lines.map (fun l => l.text)).dropLast,
          lt.getLast? ≠ some ellipsisChar)) :=
  ⟨by with_unfolding_all rfl, by with_unfolding_all rfl, by decide,
    calcLayout_truncation muFixed ['a', 'a', 'a', 'a', 'a'] 2 10 2 5
      sampleTruncLines 2 sampleTruncLayout (by with_unfolding_all rfl)
      (by with_unfolding_all rfl) (by decide)⟩
